import Mathlib

/-!
Verification of the online anomaly-detection agent (aiops/monitor.py).

The monitor keeps a bounded FIFO window of latency samples
(`latency_history`, capacity `HISTORY_SIZE = 50`), and on every tick
appends the freshly probed latency, evicts the oldest sample when the
window overflows, and — once at least 20 samples are present — trains an
isolation forest (contamination 0.1, random_state 42) on the window and
classifies the current sample.

The window and the polling loop are embedded directly from the source.
The isolation-forest detector itself is delegated by the source to an
external library, so it is modelled from the specification (§4.2):
randomized binary partitioning trees over the history, path-length
scoring `2 ^ (-E[h(x)] / c(ψ))`, and a top-contamination-fraction
decision rule.  Randomness is made explicit as a split oracle indexed by
tree number and node position; the specification fixes the seed (42) but
not the generator, so a concrete congruential stand-in realizes the seed.
-/

/-- Window capacity, from `HISTORY_SIZE = 50` in the source. -/
def HISTORY_SIZE : ℕ := 50

/-- Minimum number of window entries before the loop classifies, from
`if len(latency_history) >= 20` in the source. -/
def MIN_TRAIN : ℕ := 20

/-- One push into the sliding window, from
`latency_history.append([current_latency])` followed by
`if len(latency_history) > HISTORY_SIZE: latency_history.pop(0)`. -/
def pushSample {α : Type} (h : List α) (x : α) : List α :=
  if HISTORY_SIZE < (h ++ [x]).length then (h ++ [x]).tail else h ++ [x]

/-- The window contents after pushing a whole stream of samples into an
initially empty window, one per tick of the source's polling loop. -/
def runWindow {α : Type} (xs : List α) : List α :=
  xs.foldl pushSample []

lemma pushSample_length {α : Type} (h : List α) (x : α) :
    (pushSample h x).length =
      if HISTORY_SIZE < h.length + 1 then h.length else h.length + 1 := by
  unfold pushSample
  by_cases hc : HISTORY_SIZE < (h ++ [x]).length
  · rw [if_pos hc]
    have hcc : HISTORY_SIZE < h.length + 1 := by simpa using hc
    simp [hcc]
  · rw [if_neg hc]
    have hcc : ¬ HISTORY_SIZE < h.length + 1 := by simpa using hc
    simp [hcc]

lemma foldl_pushSample_eq_drop {α : Type} :
    ∀ (xs w : List α), w.length ≤ HISTORY_SIZE →
      xs.foldl pushSample w = (w ++ xs).drop ((w ++ xs).length - HISTORY_SIZE)
  | [], w, hw => by
      have : w.length - HISTORY_SIZE = 0 := Nat.sub_eq_zero_of_le hw
      simp [this]
  | x :: xs, w, hw => by
      have hlen : (pushSample w x).length ≤ HISTORY_SIZE := by
        rw [pushSample_length]; split <;> omega
      have ih := foldl_pushSample_eq_drop xs (pushSample w x) hlen
      rw [List.foldl_cons, ih]
      by_cases hfull : w.length = HISTORY_SIZE
      · -- the window is full: the push evicts the front element
        have hlt : HISTORY_SIZE < (w ++ [x]).length := by
          simp [List.length_append, hfull]
        have hpush : pushSample w x = (w ++ [x]).tail := by
          unfold pushSample; rw [if_pos hlt]
        have hw0 : w ≠ [] := by
          intro h0; rw [h0] at hfull; simp [HISTORY_SIZE] at hfull
        obtain ⟨a, w', rfl⟩ := List.exists_cons_of_ne_nil hw0
        have htail : pushSample (a :: w') x = w' ++ [x] := by
          rw [hpush]; simp
        rw [htail]
        have hshape : (a :: w') ++ (x :: xs) = a :: (w' ++ [x] ++ xs) := by simp
        rw [hshape]
        have hcnt : ((a :: (w' ++ [x] ++ xs)).length - HISTORY_SIZE) =
            ((w' ++ [x] ++ xs).length - HISTORY_SIZE) + 1 := by
          have : w'.length + 1 = HISTORY_SIZE := by simpa using hfull
          simp; omega
        rw [hcnt, List.drop_succ_cons]
      · -- the window is below capacity: the push is a plain append
        have hnlt : ¬ HISTORY_SIZE < (w ++ [x]).length := by
          simp [List.length_append]; omega
        have hpush : pushSample w x = w ++ [x] := by
          unfold pushSample; rw [if_neg hnlt]
        rw [hpush]
        have : w ++ [x] ++ xs = w ++ (x :: xs) := by simp
        rw [this]

/-- The window after any stream of pushes is exactly the stream's suffix
of length at most `HISTORY_SIZE`. -/
lemma runWindow_eq_drop {α : Type} (xs : List α) :
    runWindow xs = xs.drop (xs.length - HISTORY_SIZE) := by
  have := foldl_pushSample_eq_drop xs ([] : List α) (by simp)
  simpa [runWindow] using this

lemma runWindow_length_le {α : Type} (xs : List α) :
    (runWindow xs).length ≤ HISTORY_SIZE := by
  rw [runWindow_eq_drop, List.length_drop]; omega

/-- Modelled from the spec: the configuration surface of the core (§6);
the source hardcodes `contamination=0.1`, `random_state=42`, the library
default ensemble size 100, and the window constants 50 and 20. -/
structure DetectorConfig where
  windowCapacity : ℕ := 50
  minPoints : ℕ := 20
  ensembleSize : ℕ := 100
  contamination : ℚ := 1/10
  randomSeed : ℕ := 42

/-- The configuration the monitor loop actually runs with. -/
def monitorConfig : DetectorConfig := {}

/-- Modelled from the spec: the Euler–Mascheroni constant literal used by
the harmonic-number approximation in §4.2. -/
noncomputable def eulerGamma : ℝ := 5772156649 / 10000000000

/-- Modelled from the spec: the expected path length `c(n)` of an
unsorted binary search tree over `n` points, `c(n) = 2·H(n-1) − 2·(n-1)/n`
for `n > 1` and `0` for `n ≤ 1`, with `H(m) = ln m + γ` (§4.2 step 2). -/
noncomputable def cFactor (n : ℕ) : ℝ :=
  if n ≤ 1 then 0
  else 2 * (Real.log ((n : ℝ) - 1) + eulerGamma) - 2 * ((n : ℝ) - 1) / (n : ℝ)

/-- Modelled from the spec: an isolation tree (§3) — internal nodes hold a
split threshold, leaves record how many points partitioning stopped on. -/
inductive ITree where
  | leaf (size : ℕ)
  | node (split : ℝ) (left right : ITree)

/-- Modelled from the spec: a split fraction must lie strictly between the
endpoints; out-of-range oracle values fall back to the midpoint so every
constructed split is strictly between the node's min and max. -/
noncomputable def clampFrac (f : ℝ) : ℝ :=
  if 0 < f ∧ f < 1 then f else 1/2

/-- Modelled from the spec: recursive construction of one isolation tree
(§4.2 step 1).  A node with at most one point, a degenerate (zero
variance) point set, or an exhausted depth budget becomes a leaf recording
its point count; otherwise a split strictly between the point set's min
and max is drawn from the oracle and points scatter into the children by
the less-than / greater-or-equal rule.  The oracle is indexed by the
node's position (path of left/right choices), making the randomness an
explicit input. -/
noncomputable def buildTree (oracle : List Bool → ℝ) (path : List Bool)
    (pts : List ℝ) : ℕ → ITree
  | 0 => .leaf pts.length
  | fuel + 1 =>
    match pts with
    | [] => .leaf 0
    | p :: ps =>
      let mn := ps.foldl min p
      let mx := ps.foldl max p
      if (p :: ps).length ≤ 1 ∨ mn = mx then .leaf (p :: ps).length
      else
        let s := mn + clampFrac (oracle path) * (mx - mn)
        .node s
          (buildTree oracle (false :: path) ((p :: ps).filter (fun q => decide (q < s))) fuel)
          (buildTree oracle (true :: path) ((p :: ps).filter (fun q => decide (s ≤ q))) fuel)

/-- Modelled from the spec: path length of a query in one tree — the
number of internal nodes traversed plus the size correction `c(leaf
count)` at the leaf (§4.2 step 2). -/
noncomputable def pathLen : ITree → ℝ → ℝ
  | .leaf sz, _ => cFactor sz
  | .node s l r, q => 1 + (if q < s then pathLen l q else pathLen r q)

/-- Modelled from the spec: average path length of the query over the
ensemble of `ensembleSize` trees, each built over the full history (the
§4.2 subsample mechanism is a no-op at window sizes ≤ 50) with its own
oracle slice and a depth budget of `ceil(log2(subsample size))`. -/
noncomputable def avgPathLen (cfg : DetectorConfig) (oracle : ℕ → List Bool → ℝ)
    (hist : List ℝ) (q : ℝ) : ℝ :=
  (((List.range cfg.ensembleSize).map
      (fun t => pathLen (buildTree (oracle t) [] hist (Nat.clog 2 hist.length)) q)).sum)
    / (cfg.ensembleSize : ℝ)

/-- Modelled from the spec: the normalized anomaly score
`2 ^ (−E[h(x)] / c(ψ))` with `ψ` the (un-subsampled) history size
(§4.2 step 3). -/
noncomputable def scoreOf (cfg : DetectorConfig) (oracle : ℕ → List Bool → ℝ)
    (hist : List ℝ) (q : ℝ) : ℝ :=
  (2 : ℝ) ^ (-(avgPathLen cfg oracle hist q) / cFactor hist.length)

/-- Number of pooled scores that make up the top `contamination` fraction
of a ranking of `n` scores. -/
def topCount (c : ℚ) (n : ℕ) : ℕ :=
  (Int.floor (c * (n : ℚ))).toNat

/-- Modelled from the spec: the contamination-calibrated decision rule
(§4.2 step 4) — pool the query score with the history scores, rank the
pool descending, and flag the query exactly when its score is strictly
above the pool's entry at position `topCount` (the first entry outside
the top fraction).  The strict comparison realizes "falls in the top
fraction" and resolves rank ties toward normal, matching the §4.2
zero-variance fallback whose tied scores must classify as normal. -/
def topFractionAnomalous {α : Type} [LinearOrder α]
    (histScores : List α) (qScore : α) (c : ℚ) : Bool :=
  let pooled := qScore :: histScores
  let ranked := pooled.insertionSort (fun a b => b ≤ a)
  decide (ranked.getD (topCount c pooled.length) qScore < qScore)

/-- Rank of a score from the top of a pool: how many pooled scores are at
least as large as it (itself included). -/
def rankFromTop {α : Type} [LinearOrder α] (pooled : List α) (q : α) : ℕ :=
  pooled.countP (fun s => decide (q ≤ s))

/-- The spec's wording of the decision rule, stated independently of the
implementation: the query's score falls within the top `contamination`
fraction of the ranked pool of history-plus-query scores. -/
def inTopFraction {α : Type} [LinearOrder α]
    (histScores : List α) (qScore : α) (c : ℚ) : Prop :=
  rankFromTop (qScore :: histScores) qScore ≤ topCount c (qScore :: histScores).length

/-- Output of one classification: the anomaly score and the boolean
verdict (§3). -/
structure Verdict where
  score : ℝ
  isAnomaly : Bool

/-- Modelled from the spec: `classify(history, query, config)` — score the
query and the entire history against the same forest and decide by the
top-contamination-fraction rule (§4.2). -/
noncomputable def classifyR (cfg : DetectorConfig) (oracle : ℕ → List Bool → ℝ)
    (hist : List ℝ) (q : ℝ) : Verdict :=
  let qs := scoreOf cfg oracle hist q
  ⟨qs, topFractionAnomalous (hist.map (scoreOf cfg oracle hist)) qs cfg.contamination⟩

/-- Modelled from the spec: a deterministic split-oracle derived from the
integer seed.  The spec fixes the reference seed (42) but not the
generator, so an explicit linear congruential stand-in realizes it; every
produced fraction lies in (0,1). -/
def lcgStep (n : ℕ) : ℕ := (1103515245 * n + 12345) % 2147483648

/-- Binary encoding of a node position, used to give every tree node its
own oracle draw. -/
def encodePath : List Bool → ℕ
  | [] => 1
  | b :: p => 2 * encodePath p + (if b then 1 else 0)

/-- The split-fraction stream of a given seed: tree index and node
position determine the draw. -/
noncomputable def oracleOfSeed (seed : ℕ) (t : ℕ) (path : List Bool) : ℝ :=
  ((lcgStep (seed + 1000003 * t + 7919 * encodePath path) % 1000 + 1 : ℕ) : ℝ) / 1002

/-- Classification as a function of the integer random seed, the form in
which the source fixes `random_state=42`. -/
noncomputable def classifySeeded (cfg : DetectorConfig) (seed : ℕ)
    (hist : List ℝ) (q : ℝ) : Verdict :=
  classifyR cfg (oracleOfSeed seed) hist q

/-- The probe result boundary, from `get_latency` in the source: a
successful probe yields the measured latency in milliseconds, any failure
(timeout or error) yields the sentinel penalty value `2000.0`. -/
def getLatency (probe : Option ℝ) : ℝ :=
  match probe with
  | some t => t
  | none => 2000.0

/-- One tick's classification, from the loop body of the source: the new
sample is appended to the window (with FIFO eviction), and once the
window holds at least `MIN_TRAIN = 20` entries the current sample is
classified against the updated window with the hardcoded configuration
and seed; below that the tick silently produces no verdict. -/
noncomputable def tickVerdict (h : List ℝ) (x : ℝ) : Option Verdict :=
  if MIN_TRAIN ≤ (pushSample h x).length then
    some (classifySeeded monitorConfig 42 (pushSample h x) x)
  else none

/-- One full tick of the loop: the updated window together with the
tick's (possibly absent) verdict. -/
noncomputable def tickStep (h : List ℝ) (x : ℝ) : List ℝ × Option Verdict :=
  (pushSample h x, tickVerdict h x)

/-- The monitor loop run over a whole input stream, from the source's
`while True` body: state is the window, and the second component is the
verdict of the most recent tick. -/
noncomputable def runMonitor (xs : List ℝ) : List ℝ × Option Verdict :=
  xs.foldl (fun st x => (pushSample st.1 x, tickVerdict st.1 x)) ([], none)

lemma topCount_lt (c : ℚ) (n : ℕ) (hc : c < 1) (hn : 0 < n) : topCount c n < n := by
  unfold topCount
  have hmul : c * (n : ℚ) < (n : ℚ) := by
    calc c * (n : ℚ) < 1 * (n : ℚ) := by
          exact mul_lt_mul_of_pos_right hc (by exact_mod_cast hn)
      _ = (n : ℚ) := one_mul _
  have hfloor : Int.floor (c * (n : ℚ)) < (n : ℤ) := by
    rw [Int.floor_lt]; exact_mod_cast hmul
  omega

lemma topCount_mono (c₁ c₂ : ℚ) (n : ℕ) (h : c₁ ≤ c₂) : topCount c₁ n ≤ topCount c₂ n := by
  unfold topCount
  have : Int.floor (c₁ * (n : ℚ)) ≤ Int.floor (c₂ * (n : ℚ)) :=
    Int.floor_le_floor (mul_le_mul_of_nonneg_right h (by positivity))
  omega

/-- In a descending-sorted list, the entry at position `k` is strictly
below `q` exactly when at most `k` entries are at least `q`. -/
lemma sorted_get_lt_iff {α : Type} [LinearOrder α] :
    ∀ (l : List α), l.Sorted (fun a b => b ≤ a) → ∀ (q : α) (k : ℕ) (hk : k < l.length),
      (l.get ⟨k, hk⟩ < q ↔ l.countP (fun s => decide (q ≤ s)) ≤ k)
  | [], _, q, k, hk => by simp at hk
  | a :: t, hs, q, k, hk => by
    rw [List.sorted_cons] at hs
    obtain ⟨ha, ht⟩ := hs
    have hcons : List.countP (fun s => decide (q ≤ s)) (a :: t)
        = List.countP (fun s => decide (q ≤ s)) t + if q ≤ a then 1 else 0 := by
      rw [List.countP_cons]; by_cases hqa : q ≤ a <;> simp [hqa]
    rw [hcons]
    cases k with
    | zero =>
      have hget : (a :: t).get ⟨0, hk⟩ = a := rfl
      rw [hget]
      constructor
      · intro haq
        have h1 : List.countP (fun s => decide (q ≤ s)) t = 0 := by
          rw [List.countP_eq_zero]
          intro s hst
          simp only [decide_eq_true_eq]
          intro hqs
          exact absurd (le_trans hqs (ha s hst)) (not_le_of_lt haq)
        have h2 : ¬ (q ≤ a) := not_le_of_lt haq
        simp [h1, h2]
      · intro hcnt
        by_contra hnlt
        have hqa : q ≤ a := le_of_not_lt hnlt
        rw [if_pos hqa] at hcnt
        omega
    | succ k' =>
      have hk' : k' < t.length := by simpa using hk
      have ih := sorted_get_lt_iff t ht q k' hk'
      have hget : (a :: t).get ⟨k' + 1, hk⟩ = t.get ⟨k', hk'⟩ := rfl
      rw [hget]
      by_cases hqa : q ≤ a
      · rw [if_pos hqa, ih]
        omega
      · have haq : a < q := lt_of_not_le hqa
        have hcnt0 : List.countP (fun s => decide (q ≤ s)) t = 0 := by
          rw [List.countP_eq_zero]
          intro s hst
          simp only [decide_eq_true_eq]
          intro hqs
          exact absurd (le_trans hqs (ha s hst)) (not_le_of_lt haq)
        have hget2 : t.get ⟨k', hk'⟩ < q := lt_of_le_of_lt (ha _ (t.get_mem _ _)) haq
        rw [if_neg hqa, hcnt0]
        constructor
        · intro _h
          omega
        · intro _h
          exact hget2

/-- The implemented decision boolean agrees with the spec's wording of
the top-contamination-fraction rule whenever the contamination fraction
is below one. -/
lemma topFractionAnomalous_iff {α : Type} [LinearOrder α] (hs : List α) (q : α) (c : ℚ)
    (hc : c < 1) :
    topFractionAnomalous hs q c = true ↔ inTopFraction hs q c := by
  unfold topFractionAnomalous inTopFraction rankFromTop
  show decide (((q :: hs).insertionSort (fun a b => b ≤ a)).getD
        (topCount c (q :: hs).length) q < q) = true
      ↔ List.countP (fun s => decide (q ≤ s)) (q :: hs) ≤ topCount c (q :: hs).length
  have hNpos : 0 < (q :: hs).length := by simp
  have hkN : topCount c (q :: hs).length < (q :: hs).length := topCount_lt _ _ hc hNpos
  have hperm : ((q :: hs).insertionSort (fun a b => b ≤ a)).Perm (q :: hs) :=
    List.perm_insertionSort _ _
  have hkR : topCount c (q :: hs).length
      < ((q :: hs).insertionSort (fun a b => b ≤ a)).length := by
    rw [hperm.length_eq]; exact hkN
  rw [List.getD_eq_get _ _ hkR]
  have hsorted : ((q :: hs).insertionSort (fun a b => b ≤ a)).Sorted (fun a b => b ≤ a) :=
    List.sorted_insertionSort _ _
  have hiff := sorted_get_lt_iff _ hsorted q (topCount c (q :: hs).length) hkR
  rw [hperm.countP_eq] at hiff
  rw [decide_eq_true_eq]
  exact hiff

/-- Raising the contamination fraction can only enlarge the flagged top
fraction: the decision boolean is monotone in the contamination. -/
lemma topFractionAnomalous_mono {α : Type} [LinearOrder α] (hs : List α) (q : α)
    (c₁ c₂ : ℚ) (h12 : c₁ ≤ c₂) (hc2 : c₂ < 1)
    (h : topFractionAnomalous hs q c₁ = true) :
    topFractionAnomalous hs q c₂ = true := by
  have hc1 : c₁ < 1 := lt_of_le_of_lt h12 hc2
  rw [topFractionAnomalous_iff hs q c₁ hc1] at h
  rw [topFractionAnomalous_iff hs q c₂ hc2]
  unfold inTopFraction at h ⊢
  exact le_trans h (topCount_mono c₁ c₂ _ h12)

/-- A pool of identical scores never flags its query: the strict
comparison at the rank threshold fails on a tie. -/
lemma topFractionAnomalous_replicate {α : Type} [LinearOrder α] (n : ℕ) (s : α) (c : ℚ) :
    topFractionAnomalous (List.replicate n s) s c = false := by
  unfold topFractionAnomalous
  show decide (((s :: List.replicate n s).insertionSort (fun a b => b ≤ a)).getD
        (topCount c (s :: List.replicate n s).length) s < s) = false
  have hpool : s :: List.replicate n s = List.replicate (n + 1) s :=
    (List.replicate_succ s n).symm
  rw [hpool]
  have hperm := List.perm_insertionSort (fun a b => b ≤ a) (List.replicate (n + 1) s)
  have hmem : ∀ b ∈ (List.replicate (n + 1) s).insertionSort (fun a b => b ≤ a), b = s :=
    fun b hb => List.eq_of_mem_replicate (hperm.mem_iff.mp hb)
  have hlen : ((List.replicate (n + 1) s).insertionSort (fun a b => b ≤ a)).length = n + 1 := by
    rw [hperm.length_eq, List.length_replicate]
  have hsort : (List.replicate (n + 1) s).insertionSort (fun a b => b ≤ a)
      = List.replicate (n + 1) s := by
    calc (List.replicate (n + 1) s).insertionSort (fun a b => b ≤ a)
        = List.replicate ((List.replicate (n + 1) s).insertionSort (fun a b => b ≤ a)).length s :=
          List.eq_replicate_of_mem hmem
      _ = List.replicate (n + 1) s := by rw [hlen]
  rw [hsort]
  have hgetD : (List.replicate (n + 1) s).getD (topCount c (List.replicate (n + 1) s).length) s
      = s := by
    rcases Nat.lt_or_ge (topCount c (List.replicate (n + 1) s).length) (n + 1) with hk | hk
    · rw [List.getD_eq_get _ s (by simpa using hk)]
      exact List.get_replicate _ _
    · exact List.getD_eq_default _ s (by simpa using hk)
  rw [hgetD]
  simp

/-- Classifying the shared constant against a constant history is never
anomalous: every pooled score is the score of the same value, so the
pool is a tie and the top-fraction rule resolves it to normal. -/
lemma classifyR_const_normal (cfg : DetectorConfig) (oracle : ℕ → List Bool → ℝ)
    (m : ℕ) (a : ℝ) :
    (classifyR cfg oracle (List.replicate (m + 1) a) a).isAnomaly = false := by
  unfold classifyR
  show topFractionAnomalous
      ((List.replicate (m + 1) a).map (scoreOf cfg oracle (List.replicate (m + 1) a)))
      (scoreOf cfg oracle (List.replicate (m + 1) a) a) cfg.contamination = false
  rw [List.map_replicate]
  exact topFractionAnomalous_replicate _ _ _

lemma foldl_max_mem {α : Type} [LinearOrder α] :
    ∀ (l : List α) (a : α), l.foldl max a ∈ a :: l
  | [], a => by simp
  | b :: l, a => by
    rw [List.foldl_cons]
    have hmem := foldl_max_mem l (max a b)
    rcases List.mem_cons.mp hmem with h | h
    · rw [h]
      rcases max_choice a b with hm | hm <;> rw [hm]
      · exact List.mem_cons_self _ _
      · exact List.mem_cons_of_mem _ (List.mem_cons_self _ _)
    · exact List.mem_cons_of_mem _ (List.mem_cons_of_mem _ h)

lemma le_foldl_max {α : Type} [LinearOrder α] :
    ∀ (l : List α) (a x : α), x ∈ a :: l → x ≤ l.foldl max a
  | [], a, x, hx => by
    simp at hx; simp [hx]
  | b :: l, a, x, hx => by
    rw [List.foldl_cons]
    rcases List.mem_cons.mp hx with h | h
    · subst h
      exact le_trans (le_max_left x b) (le_foldl_max l _ _ (List.mem_cons_self _ _))
    · rcases List.mem_cons.mp h with h2 | h2
      · subst h2
        exact le_trans (le_max_right a x) (le_foldl_max l _ _ (List.mem_cons_self _ _))
      · exact le_foldl_max l (max a b) x (List.mem_cons_of_mem _ h2)

lemma foldl_min_le {α : Type} [LinearOrder α] :
    ∀ (l : List α) (a x : α), x ∈ a :: l → l.foldl min a ≤ x
  | [], a, x, hx => by
    simp at hx; simp [hx]
  | b :: l, a, x, hx => by
    rw [List.foldl_cons]
    rcases List.mem_cons.mp hx with h | h
    · subst h
      exact le_trans (foldl_min_le l _ _ (List.mem_cons_self _ _)) (min_le_left x b)
    · rcases List.mem_cons.mp h with h2 | h2
      · subst h2
        exact le_trans (foldl_min_le l _ _ (List.mem_cons_self _ _)) (min_le_right a x)
      · exact foldl_min_le l (min a b) x (List.mem_cons_of_mem _ h2)

lemma clampFrac_pos (f : ℝ) : 0 < clampFrac f := by
  unfold clampFrac
  split_ifs with h
  · exact h.1
  · norm_num

lemma clampFrac_lt_one (f : ℝ) : clampFrac f < 1 := by
  unfold clampFrac
  split_ifs with h
  · exact h.2
  · norm_num

/-- Unfolding equation of `buildTree` on a nonempty point set with fuel
left. -/
lemma buildTree_cons (oracle : List Bool → ℝ) (path : List Bool) (p : ℝ) (ps : List ℝ)
    (fuel : ℕ) :
    buildTree oracle path (p :: ps) (fuel + 1) =
      if (p :: ps).length ≤ 1 ∨ ps.foldl min p = ps.foldl max p then .leaf (p :: ps).length
      else
        ITree.node (ps.foldl min p + clampFrac (oracle path) * (ps.foldl max p - ps.foldl min p))
          (buildTree oracle (false :: path) ((p :: ps).filter
            (fun q => decide (q < ps.foldl min p
              + clampFrac (oracle path) * (ps.foldl max p - ps.foldl min p)))) fuel)
          (buildTree oracle (true :: path) ((p :: ps).filter
            (fun q => decide (ps.foldl min p
              + clampFrac (oracle path) * (ps.foldl max p - ps.foldl min p) ≤ q))) fuel) := rfl

/-- Two queries that both upper-bound every point of the node set follow
identical descents in any constructed tree, so their path lengths agree. -/
lemma pathLen_eq_of_ub (oracle : List Bool → ℝ) :
    ∀ (fuel : ℕ) (path : List Bool) (pts : List ℝ) (q₁ q₂ : ℝ),
      (∀ p ∈ pts, p ≤ q₁) → (∀ p ∈ pts, p ≤ q₂) →
      pathLen (buildTree oracle path pts fuel) q₁ = pathLen (buildTree oracle path pts fuel) q₂
  | 0, path, pts, q₁, q₂, _, _ => by simp [buildTree, pathLen]
  | fuel + 1, path, pts, q₁, q₂, h₁, h₂ => by
    cases pts with
    | nil => simp [buildTree, pathLen]
    | cons p ps =>
      rw [buildTree_cons]
      by_cases hcond : (p :: ps).length ≤ 1 ∨ ps.foldl min p = ps.foldl max p
      · rw [if_pos hcond]
        simp [pathLen]
      · rw [if_neg hcond]
        have hmxmem : ps.foldl max p ∈ p :: ps := foldl_max_mem ps p
        have hmnmx : ps.foldl min p < ps.foldl max p := by
          rcases lt_or_eq_of_le (foldl_min_le ps p _ hmxmem) with h | h
          · exact h
          · exact absurd (Or.inr h) hcond
        have hs : ps.foldl min p + clampFrac (oracle path) * (ps.foldl max p - ps.foldl min p)
            < ps.foldl max p := by
          have hlt : clampFrac (oracle path) * (ps.foldl max p - ps.foldl min p)
              < 1 * (ps.foldl max p - ps.foldl min p) :=
            mul_lt_mul_of_pos_right (clampFrac_lt_one _) (by linarith)
          linarith
        have hq₁ : ¬ q₁ < ps.foldl min p
            + clampFrac (oracle path) * (ps.foldl max p - ps.foldl min p) :=
          not_lt.mpr (le_of_lt (lt_of_lt_of_le hs (h₁ _ hmxmem)))
        have hq₂ : ¬ q₂ < ps.foldl min p
            + clampFrac (oracle path) * (ps.foldl max p - ps.foldl min p) :=
          not_lt.mpr (le_of_lt (lt_of_lt_of_le hs (h₂ _ hmxmem)))
        unfold pathLen
        rw [if_neg hq₁, if_neg hq₂]
        have hsub : ∀ r ∈ (p :: ps).filter
            (fun q => decide (ps.foldl min p
              + clampFrac (oracle path) * (ps.foldl max p - ps.foldl min p) ≤ q)),
            r ∈ p :: ps := fun r hr => List.mem_of_mem_filter hr
        have ih := pathLen_eq_of_ub oracle fuel (true :: path)
          ((p :: ps).filter (fun q => decide (ps.foldl min p
            + clampFrac (oracle path) * (ps.foldl max p - ps.foldl min p) ≤ q))) q₁ q₂
          (fun r hr => h₁ r (hsub r hr)) (fun r hr => h₂ r (hsub r hr))
        rw [ih]

/-- Two queries that both upper-bound the whole history receive the same
anomaly score from the forest. -/
lemma scoreOf_eq_of_ub (cfg : DetectorConfig) (oracle : ℕ → List Bool → ℝ)
    (hist : List ℝ) (q₁ q₂ : ℝ)
    (h₁ : ∀ p ∈ hist, p ≤ q₁) (h₂ : ∀ p ∈ hist, p ≤ q₂) :
    scoreOf cfg oracle hist q₁ = scoreOf cfg oracle hist q₂ := by
  unfold scoreOf avgPathLen
  have hmap : (List.range cfg.ensembleSize).map
        (fun t => pathLen (buildTree (oracle t) [] hist (Nat.clog 2 hist.length)) q₁)
      = (List.range cfg.ensembleSize).map
        (fun t => pathLen (buildTree (oracle t) [] hist (Nat.clog 2 hist.length)) q₂) := by
    apply List.map_congr_left
    intro t _
    exact pathLen_eq_of_ub (oracle t) (Nat.clog 2 hist.length) [] hist q₁ q₂ h₁ h₂
  rw [hmap]

/-- Two queries that both upper-bound the whole history receive the
identical verdict — score and boolean — from classification. -/
lemma classifyR_eq_of_ub (cfg : DetectorConfig) (oracle : ℕ → List Bool → ℝ)
    (hist : List ℝ) (q₁ q₂ : ℝ)
    (h₁ : ∀ p ∈ hist, p ≤ q₁) (h₂ : ∀ p ∈ hist, p ≤ q₂) :
    classifyR cfg oracle hist q₁ = classifyR cfg oracle hist q₂ := by
  unfold classifyR
  rw [scoreOf_eq_of_ub cfg oracle hist q₁ q₂ h₁ h₂]

lemma runMonitor_foldl_fst :
    ∀ (xs : List ℝ) (w : List ℝ) (v : Option Verdict),
      (xs.foldl (fun st x => (pushSample st.1 x, tickVerdict st.1 x)) (w, v)).1
        = xs.foldl pushSample w
  | [], _, _ => rfl
  | x :: xs, w, v => by
    rw [List.foldl_cons, List.foldl_cons]
    exact runMonitor_foldl_fst xs (pushSample w x) (tickVerdict w x)

/-- The loop's state after a stream is exactly the window of that
stream. -/
lemma runMonitor_fst (xs : List ℝ) : (runMonitor xs).1 = runWindow xs :=
  runMonitor_foldl_fst xs [] none

/-- The verdict of the last tick is the tick verdict of the final sample
against the window of everything before it. -/
lemma runMonitor_snd_append (xs : List ℝ) (x : ℝ) :
    (runMonitor (xs ++ [x])).2 = tickVerdict (runWindow xs) x := by
  unfold runMonitor
  rw [List.foldl_append]
  simp only [List.foldl_cons, List.foldl_nil]
  have hfst := runMonitor_foldl_fst xs [] none
  unfold runWindow
  rw [hfst]

/-- Pushing one sample onto the window of a stream gives the window of
the extended stream. -/
lemma runWindow_append_singleton {α : Type} (l : List α) (x : α) :
    runWindow (l ++ [x]) = pushSample (runWindow l) x := by
  unfold runWindow
  rw [List.foldl_append]
  rfl

/-- The freshly pushed sample is always the last element of the updated
window. -/
lemma pushSample_getLast? {α : Type} (h : List α) (x : α) :
    (pushSample h x).getLast? = some x := by
  unfold pushSample
  by_cases hc : HISTORY_SIZE < (h ++ [x]).length
  · rw [if_pos hc]
    cases h with
    | nil => simp [HISTORY_SIZE] at hc
    | cons c h' => simp
  · rw [if_neg hc]
    simp

/-- The tick verdict depends on the input only through the updated window
and the pushed sample. -/
lemma tickVerdict_congr (h₁ h₂ : List ℝ) (x₁ x₂ : ℝ)
    (hp : pushSample h₁ x₁ = pushSample h₂ x₂) (hx : x₁ = x₂) :
    tickVerdict h₁ x₁ = tickVerdict h₂ x₂ := by
  unfold tickVerdict
  rw [hp, hx]

/-- C1: sliding-window bound and FIFO content — for every stream of
pushed samples the window's size never exceeds the capacity
`HISTORY_SIZE = 50`, and once at least 50 samples have been pushed
(capacity + k pushes, k ≥ 0) the window holds exactly the last 50 pushed
values in arrival order, oldest first. -/
theorem window_bound_and_fifo {α : Type} (xs : List α) :
    (runWindow xs).length ≤ HISTORY_SIZE ∧
      (HISTORY_SIZE ≤ xs.length →
        runWindow xs = xs.drop (xs.length - HISTORY_SIZE)) :=
  ⟨runWindow_length_le xs, fun _ => runWindow_eq_drop xs⟩

theorem window_bound_and_fifo_witness :
    (runWindow (List.range 53)).length ≤ HISTORY_SIZE ∧
      runWindow (List.range 53) = (List.range 53).drop 3 :=
  ⟨(window_bound_and_fifo (List.range 53)).1, by
    have h := (window_bound_and_fifo (List.range 53)).2 (by simp [HISTORY_SIZE])
    simpa [HISTORY_SIZE] using h⟩

/-- C10: window occupancy is monotone and saturates — a push never
shrinks the window, grows it by exactly one while below capacity, and
leaves it at exactly 50 once capacity is reached. -/
theorem window_occupancy_saturates {α : Type} (h : List α) (x : α) :
    h.length ≤ (pushSample h x).length ∧
      (h.length < HISTORY_SIZE → (pushSample h x).length = h.length + 1) ∧
      (h.length = HISTORY_SIZE → (pushSample h x).length = HISTORY_SIZE) := by
  have hl := pushSample_length h x
  refine ⟨?_, ?_, ?_⟩
  · rw [hl]; split <;> omega
  · intro hlt
    rw [hl, if_neg (by omega)]
  · intro heq
    rw [hl, if_pos (by omega)]
    omega

theorem window_occupancy_saturates_witness :
    (List.replicate 49 (0 : ℕ)).length ≤ (pushSample (List.replicate 49 (0 : ℕ)) 7).length ∧
      (pushSample (List.replicate 49 (0 : ℕ)) 7).length = 50 ∧
      (pushSample (List.replicate 50 (0 : ℕ)) 7).length = 50 :=
  ⟨(window_occupancy_saturates (List.replicate 49 (0 : ℕ)) 7).1, by
    have h := (window_occupancy_saturates (List.replicate 49 (0 : ℕ)) 7).2.1
      (by simp [HISTORY_SIZE])
    simpa using h, by
    have h := (window_occupancy_saturates (List.replicate 50 (0 : ℕ)) 7).2.2
      (by simp [HISTORY_SIZE])
    simpa [HISTORY_SIZE] using h⟩

/-- C2 counterexample: with 18 prior samples (19 in the window after the
push, below `MIN_TRAIN = 20`) the tick produces `none` — the loop's
guard silently skips classification.  The loop's codomain has no error
outcome at all, so no `InsufficientHistory` condition is signalled,
contrary to the claim. -/
theorem insufficient_history_counterexample :
    tickVerdict (List.replicate 18 (12 : ℝ)) 12 = none := by
  have hlen : ¬ MIN_TRAIN ≤ (pushSample (List.replicate 18 (12 : ℝ)) 12).length := by
    rw [pushSample_length]
    simp [HISTORY_SIZE, MIN_TRAIN]
  unfold tickVerdict
  rw [if_neg hlen]

/-- C2 amended: below 20 window entries the tick silently produces no
verdict and no error (classification is skipped by the caller-side
guard), and at 20 or more entries a verdict is always produced. -/
theorem minimum_history_gate (h : List ℝ) (x : ℝ) :
    ((pushSample h x).length < MIN_TRAIN → tickVerdict h x = none) ∧
      (MIN_TRAIN ≤ (pushSample h x).length →
        tickVerdict h x = some (classifySeeded monitorConfig 42 (pushSample h x) x)) := by
  unfold tickVerdict
  constructor
  · intro hlt
    rw [if_neg (by omega)]
  · intro hge
    rw [if_pos hge]

theorem minimum_history_gate_witness :
    tickVerdict (List.replicate 10 (5 : ℝ)) 5 = none ∧
      tickVerdict (List.replicate 30 (12 : ℝ)) 12
        = some (classifySeeded monitorConfig 42 (pushSample (List.replicate 30 (12 : ℝ)) 12) 12) :=
  ⟨(minimum_history_gate (List.replicate 10 (5 : ℝ)) 5).1
      (by rw [pushSample_length]; simp [HISTORY_SIZE, MIN_TRAIN]),
   (minimum_history_gate (List.replicate 30 (12 : ℝ)) 12).2
      (by rw [pushSample_length]; simp [HISTORY_SIZE, MIN_TRAIN])⟩

/-- C3: the classifier's boolean verdict is true exactly when the query's
score falls within the top contamination fraction of the pooled
history-plus-query scores, all scored against the same forest and ranked
descending. -/
theorem top_fraction_decision (cfg : DetectorConfig) (oracle : ℕ → List Bool → ℝ)
    (hist : List ℝ) (q : ℝ) (hmin : MIN_TRAIN ≤ hist.length)
    (hc : cfg.contamination < 1) :
    ((classifyR cfg oracle hist q).isAnomaly = true ↔
      inTopFraction (hist.map (scoreOf cfg oracle hist)) (scoreOf cfg oracle hist q)
        cfg.contamination) := by
  unfold classifyR
  exact topFractionAnomalous_iff _ _ _ hc

theorem top_fraction_decision_witness :
    ((classifyR monitorConfig (oracleOfSeed 42) (List.replicate 20 (15 : ℝ)) 15).isAnomaly = true
      ↔ inTopFraction
          ((List.replicate 20 (15 : ℝ)).map
            (scoreOf monitorConfig (oracleOfSeed 42) (List.replicate 20 (15 : ℝ))))
          (scoreOf monitorConfig (oracleOfSeed 42) (List.replicate 20 (15 : ℝ)) 15)
          monitorConfig.contamination) :=
  top_fraction_decision monitorConfig (oracleOfSeed 42) (List.replicate 20 (15 : ℝ)) 15
    (by simp [MIN_TRAIN]) (by norm_num [monitorConfig])

/-- C4: determinism under a fixed seed — two classification calls with
identical history, identical query and identical seed return identical
verdicts (score and boolean); classification is a pure function of
those inputs, mirroring the source's fresh forest with
`random_state=42` and no hidden state. -/
theorem classify_deterministic (cfg : DetectorConfig) (s₁ s₂ : ℕ)
    (h₁ h₂ : List ℝ) (q₁ q₂ : ℝ) (hs : s₁ = s₂) (hh : h₁ = h₂) (hq : q₁ = q₂) :
    classifySeeded cfg s₁ h₁ q₁ = classifySeeded cfg s₂ h₂ q₂ := by
  rw [hs, hh, hq]

theorem classify_deterministic_witness :
    classifySeeded monitorConfig 42 (List.replicate 20 (15 : ℝ)) 15
      = classifySeeded monitorConfig 42 (List.replicate 20 (15 : ℝ)) 15 :=
  classify_deterministic monitorConfig 42 42 (List.replicate 20 (15 : ℝ))
    (List.replicate 20 (15 : ℝ)) 15 15 rfl rfl rfl

lemma hist5_ub (q : ℝ) (hq : 11 ≤ q) : ∀ p ∈ (10 : ℝ) :: List.replicate 19 11, p ≤ q := by
  intro p hp
  rcases List.mem_cons.mp hp with rfl | hp2
  · linarith
  · have hp3 := List.eq_of_mem_replicate hp2
    rw [hp3]
    exact hq

/-- C5 counterexample: for the history `10, 11, …, 11` (twenty values in
[10, 20]) the far-out query 5000 receives exactly the same score as the
strictly in-range query 19 — both upper-bound every history value and so
follow identical descents in every tree — hence the far query's score is
not strictly closer to 1 than that of every in-range query. -/
theorem far_query_counterexample :
    ¬ ((classifyR monitorConfig (oracleOfSeed 42)
          ((10 : ℝ) :: List.replicate 19 11) 5000).isAnomaly = true ∧
        ∀ q : ℝ, 10 < q → q < 20 →
          (classifyR monitorConfig (oracleOfSeed 42)
              ((10 : ℝ) :: List.replicate 19 11) q).score
            < (classifyR monitorConfig (oracleOfSeed 42)
                ((10 : ℝ) :: List.replicate 19 11) 5000).score) := by
  rintro ⟨-, hB⟩
  have h19 := hB 19 (by norm_num) (by norm_num)
  have heq := classifyR_eq_of_ub monitorConfig (oracleOfSeed 42)
    ((10 : ℝ) :: List.replicate 19 11) 19 5000
    (hist5_ub 19 (by norm_num)) (hist5_ub 5000 (by norm_num))
  rw [heq] at h19
  exact lt_irrefl _ h19

/-- C5 amended: any two queries that upper-bound every history value —
e.g. a query far outside the history's range and an in-range query at or
above the history's maximum — receive identical scores and identical
verdicts, so a far-out query's score is weakly maximal among such
queries but never strictly exceeds the score of every in-range query. -/
theorem far_query_ties_at_maximum (cfg : DetectorConfig) (oracle : ℕ → List Bool → ℝ)
    (hist : List ℝ) (q₁ q₂ : ℝ)
    (h₁ : ∀ p ∈ hist, p ≤ q₁) (h₂ : ∀ p ∈ hist, p ≤ q₂) :
    classifyR cfg oracle hist q₁ = classifyR cfg oracle hist q₂ :=
  classifyR_eq_of_ub cfg oracle hist q₁ q₂ h₁ h₂

theorem far_query_ties_at_maximum_witness :
    classifyR monitorConfig (oracleOfSeed 42) ((10 : ℝ) :: List.replicate 19 11) 5000
      = classifyR monitorConfig (oracleOfSeed 42) ((10 : ℝ) :: List.replicate 19 11) 19 :=
  far_query_ties_at_maximum monitorConfig (oracleOfSeed 42)
    ((10 : ℝ) :: List.replicate 19 11) 5000 19
    (hist5_ub 5000 (by norm_num)) (hist5_ub 19 (by norm_num))

/-- C6: a zero-variance history (twenty samples all equal to 15.0) with
the query equal to the same constant is classified as normal for every
random split stream, and the (total) classifier signals nothing. -/
theorem constant_history_normal (oracle : ℕ → List Bool → ℝ) :
    (classifyR monitorConfig oracle (List.replicate 20 (15 : ℝ)) 15).isAnomaly = false :=
  classifyR_const_normal monitorConfig oracle 19 15

/-- C7: contamination monotonicity — for a fixed history, query and
random stream, raising the contamination fraction can only make the
threshold more permissive: in the order false ≤ true on verdicts, the
boolean at the lower contamination is at most the boolean at the higher
one, so an anomalous verdict never flips to normal when contamination is
raised. -/
theorem contamination_monotone (cfg : DetectorConfig) (oracle : ℕ → List Bool → ℝ)
    (hist : List ℝ) (q : ℝ) (c₁ c₂ : ℚ) (h12 : c₁ ≤ c₂) (hc2 : c₂ < 1) :
    (classifyR { cfg with contamination := c₁ } oracle hist q).isAnomaly
      ≤ (classifyR { cfg with contamination := c₂ } oracle hist q).isAnomaly := by
  by_cases hb : (classifyR { cfg with contamination := c₁ } oracle hist q).isAnomaly = true
  · have h' : topFractionAnomalous (hist.map (scoreOf cfg oracle hist))
        (scoreOf cfg oracle hist q) c₁ = true := hb
    have h2 : (classifyR { cfg with contamination := c₂ } oracle hist q).isAnomaly = true :=
      topFractionAnomalous_mono (hist.map (scoreOf cfg oracle hist))
        (scoreOf cfg oracle hist q) c₁ c₂ h12 hc2 h'
    rw [hb, h2]
  · have hf : (classifyR { cfg with contamination := c₁ } oracle hist q).isAnomaly = false := by
      simpa using hb
    rw [hf]
    exact Bool.false_le _

theorem contamination_monotone_witness :
    (classifyR { monitorConfig with contamination := (1 : ℚ)/10 } (oracleOfSeed 42)
        (List.replicate 20 (15 : ℝ)) 15).isAnomaly
      ≤ (classifyR { monitorConfig with contamination := (1 : ℚ)/2 } (oracleOfSeed 42)
        (List.replicate 20 (15 : ℝ)) 15).isAnomaly :=
  contamination_monotone monitorConfig (oracleOfSeed 42)
    (List.replicate 20 (15 : ℝ)) 15 ((1 : ℚ)/10) ((1 : ℚ)/2)
    (by norm_num) (by norm_num)

/-- C8: a failed probe yields the sentinel 2000.0 and the tick treats it
exactly as an ordinary sample of value 2000.0 — the same window update
and the same classification path, with no special-case branch. -/
theorem timeout_sentinel_ordinary (h : List ℝ) :
    getLatency none = 2000.0 ∧ tickStep h (getLatency none) = tickStep h 2000.0 :=
  ⟨rfl, rfl⟩

/-- C9: evicted samples cannot influence verdicts — two sample streams of
length at least 50 that agree on their last 50 samples produce the
identical verdict (score and boolean) at the current tick, since the
model is rebuilt each tick from the window contents alone. -/
theorem evicted_samples_no_influence (xs ys : List ℝ)
    (hx : HISTORY_SIZE ≤ xs.length) (hy : HISTORY_SIZE ≤ ys.length)
    (hsuffix : xs.drop (xs.length - HISTORY_SIZE) = ys.drop (ys.length - HISTORY_SIZE)) :
    (runMonitor xs).2 = (runMonitor ys).2 := by
  rcases List.eq_nil_or_concat xs with rfl | ⟨as, a, rfl⟩
  · simp [HISTORY_SIZE] at hx
  rcases List.eq_nil_or_concat ys with rfl | ⟨bs, b, rfl⟩
  · simp [HISTORY_SIZE] at hy
  simp only [List.concat_eq_append] at hx hy hsuffix ⊢
  rw [runMonitor_snd_append, runMonitor_snd_append]
  have hW : runWindow (as ++ [a]) = runWindow (bs ++ [b]) := by
    rw [runWindow_eq_drop, runWindow_eq_drop]
    exact hsuffix
  have hpush : pushSample (runWindow as) a = pushSample (runWindow bs) b := by
    rw [← runWindow_append_singleton, ← runWindow_append_singleton]
    exact hW
  have hlast : a = b := by
    have ha : (runWindow (as ++ [a])).getLast? = some a := by
      rw [runWindow_append_singleton]
      exact pushSample_getLast? _ _
    have hb : (runWindow (bs ++ [b])).getLast? = some b := by
      rw [runWindow_append_singleton]
      exact pushSample_getLast? _ _
    rw [hW] at ha
    rw [ha] at hb
    exact Option.some.inj hb
  exact tickVerdict_congr _ _ _ _ hpush hlast

theorem evicted_samples_no_influence_witness :
    (runMonitor ((2000 : ℝ) :: List.replicate 50 12)).2
      = (runMonitor (List.replicate 50 (12 : ℝ))).2 :=
  evicted_samples_no_influence ((2000 : ℝ) :: List.replicate 50 12)
    (List.replicate 50 (12 : ℝ))
    (by simp [HISTORY_SIZE]) (by simp [HISTORY_SIZE]) (by simp [HISTORY_SIZE])
